import Mathlib

/-!
Verification of the quickcdc content-defined chunker (src/lib.rs).

The Rust source is shallowly embedded: byte buffers become `List Nat`
(each entry read modulo 256), `usize` values become `Nat` (the
construction guard `2 * target > max` cannot overflow for any input on
which the program has a defined, non-panicking behaviour, so it is
modelled over mathematical naturals), `u64` values become `Nat` reduced
modulo `2 ^ 64`, and the unsafe 8-byte reads of the scanner become
`Option`-valued bounds-checked reads, so that an out-of-range read is an
observable `none` instead of undefined behaviour.

The parameter derivation in `Chunker::with_params` uses IEEE-754 `f64`
arithmetic.  It is embedded by an exact emulation of double-precision
round-to-nearest-even on the rationals involved (`roundF64` below): all
values rounded by the program there are ≥ 1 and the two constants
`std::f64::consts::E - 1.0` and `0.56` are exactly the rationals
`3869226701182825 / 2^51` and `5044031582654956 / 2^53`.
-/

namespace QuickCDC

/-- A byte of the buffer: entries are read modulo 256, so a `List Nat`
whose entries are below 256 is exactly a byte buffer. -/
def byteAt (l : List Nat) (i : Nat) : Nat := l.getD i 0 % 256

/-- Round the rational `a / b` to the nearest integer, ties to even
(the IEEE-754 default rounding used by every Rust `f64` operation). -/
def rne (a b : Nat) : Nat :=
  let d := a / b
  let r := a % b
  if 2 * r < b then d
  else if b < 2 * r then d + 1
  else if d % 2 = 0 then d else d + 1

/-- Fuel-indexed floor of the base-2 logarithm (structural recursion so
that the kernel can evaluate it). -/
def log2F : Nat → Nat → Nat
  | 0, _ => 0
  | f + 1, n => if 2 ≤ n then log2F f (n / 2) + 1 else 0

/-- Floor of the base-2 logarithm; `n` itself is always enough fuel. -/
def nlog2 (n : Nat) : Nat := log2F n n

/-- Round the nonnegative rational `p / q` to 53 significant bits,
round-to-nearest ties-to-even, returning the numerator `N` of the result
written as `N / 2^52`.  For values ≥ 1 this is exactly IEEE-754 double
rounding; the chunker only rounds such values. -/
def roundF64 (p q : Nat) : Nat :=
  let j := nlog2 (p / q)
  if j ≤ 52 then rne (p * 2 ^ (52 - j)) q * 2 ^ j
  else rne p (q * 2 ^ (j - 52)) * 2 ^ j

/-- Rust `as usize` on a nonnegative double `n / 2^52`: truncate toward
zero, saturating at `usize::MAX`. -/
def f64toUsize (n : Nat) : Nat := min (n / 2 ^ 52) (2 ^ 64 - 1)

/-- `std::f64::consts::E - 1.0` is exactly `3869226701182825 / 2^51`
(the subtraction of `1.0` from the nearest double to Euler's number is
exact). -/
def E_M1_NUM : Nat := 3869226701182825

/-- `(0.56 : f64)` is exactly `5044031582654956 / 2^53`. -/
def C56_NUM : Nat := 5044031582654956

/-- `let target_window_size = (target_chunksize_bytes as f64 / (consts::E - 1.0)) as usize`:
the double for `t` is `roundF64 t 1 / 2^52`, dividing it by
`E_M1_NUM / 2^51` gives the rational `roundF64 t 1 / (2 * E_M1_NUM)`,
which is rounded once more and truncated. -/
def targetWindowSize (t : Nat) : Nat :=
  f64toUsize (roundF64 (roundF64 t 1) (2 * E_M1_NUM))

/-- `let my_window_size = (target_window_size as f64 * 0.56) as usize`:
the double for `tw` is `roundF64 tw 1 / 2^52`, multiplying by
`C56_NUM / 2^53` gives `(roundF64 tw 1 * C56_NUM) / 2^105`, rounded and
truncated. -/
def windowSizeOf (tw : Nat) : Nat :=
  f64toUsize (roundF64 (roundF64 tw 1 * C56_NUM) (2 ^ 105))

/-- The chunking session state, `struct Chunker` of the source (the
borrowed slice is embedded by value). -/
structure Chunker where
  slice : List Nat
  window_size : Nat
  max_chunksize : Nat
  min_chunksize : Nat
  salt : Nat
  bytes_processed : Nat
  bytes_remaining : Nat
deriving DecidableEq

/-- `enum ChunkerError`. -/
inductive ChunkerError where
  | InsufficientMaxSize
  | InsufficientTargetSize
deriving DecidableEq

/-- `Chunker::with_params`.  The Rust guard `2 * target_chunksize_bytes >
max_chunksize_bytes` is written as `max < 2 * target`. -/
def Chunker.with_params (slice : List Nat)
    (target_chunksize_bytes max_chunksize_bytes salt : Nat) :
    Except ChunkerError Chunker :=
  if max_chunksize_bytes < 2 * target_chunksize_bytes then
    .error .InsufficientMaxSize
  else if target_chunksize_bytes < 64 then
    .error .InsufficientTargetSize
  else
    let target_window_size := targetWindowSize target_chunksize_bytes
    let my_window_size := windowSizeOf target_window_size
    let min_chunksize := target_chunksize_bytes - target_window_size
    .ok { slice := slice, window_size := my_window_size,
          max_chunksize := max_chunksize_bytes, min_chunksize := min_chunksize,
          salt := salt, bytes_processed := 0, bytes_remaining := slice.length }

/-- The unaligned little-endian `u64` read at offset `i` followed by
`swap_bytes()`, i.e. the big-endian value of bytes `i .. i+7`; `none`
when the 8 bytes are not entirely inside the buffer (in the source this
would be an out-of-bounds read). -/
def readU64BE (l : List Nat) (i : Nat) : Option Nat :=
  if i + 8 ≤ l.length then
    some (byteAt l i * 2 ^ 56 + byteAt l (i + 1) * 2 ^ 48 + byteAt l (i + 2) * 2 ^ 40 +
      byteAt l (i + 3) * 2 ^ 32 + byteAt l (i + 4) * 2 ^ 24 + byteAt l (i + 5) * 2 ^ 16 +
      byteAt l (i + 6) * 2 ^ 8 + byteAt l (i + 7))
  else none

/-- `swapped_salted_isgt`: byte-swap both 8-byte words, XOR each with
the salt, and test whether the first strictly exceeds the second. -/
def swapped_salted_isgt (l : List Nat) (i j salt : Nat) : Option Bool :=
  match readU64BE l i, readU64BE l j with
  | some a, some b =>
      some (decide ((b ^^^ salt % 2 ^ 64) < (a ^^^ salt % 2 ^ 64)))
  | _, _ => none

/-- The `for i in min_chunksize..end_index` loop of `next_chunked_slice`:
`fuel` is the number of remaining iterations (`end_index - i`), so
`fuel = 0` is normal loop exit, which forces the final cutpoint
`min(max_chunksize, remaining.len())`. -/
def scanLoop (l : List Nat) (window_size max_chunksize salt : Nat) :
    Nat → Nat → Nat → Option Nat
  | 0, _, _ => some (if max_chunksize < l.length then max_chunksize else l.length)
  | fuel + 1, i, marker =>
    if i = max_chunksize then some i
    else
      match swapped_salted_isgt l i marker salt with
      | none => none
      | some g =>
        if g then
          if i = marker + window_size then some i
          else scanLoop l window_size max_chunksize salt fuel (i + 1) marker
        else scanLoop l window_size max_chunksize salt fuel (i + 1) i

/-- `next_chunked_slice`, returning the length of the produced slice
(the slice itself is `remaining.take len`).  `none` is the unreachable
out-of-bounds sentinel propagated from the comparator. -/
def next_chunked_slice (remaining : List Nat)
    (window_size min_chunksize max_chunksize salt : Nat) : Option Nat :=
  if remaining.length ≤ min_chunksize + window_size then some remaining.length
  else
    scanLoop remaining window_size max_chunksize salt
      (remaining.length - 8 - min_chunksize) min_chunksize 0

/-- `Iterator::next` for `Chunker`: the inner `Option` is the iterator's
end-of-sequence signal (`none` = exhausted), the outer `Option` is the
out-of-bounds sentinel of the model. -/
def Chunker.next (c : Chunker) : Option (Option (List Nat) × Chunker) :=
  if c.bytes_remaining = 0 then some (none, c)
  else
    match next_chunked_slice (c.slice.drop c.bytes_processed) c.window_size
        c.min_chunksize c.max_chunksize c.salt with
    | none => none
    | some len =>
      some (some ((c.slice.drop c.bytes_processed).take len),
        { c with bytes_processed := c.bytes_processed + len,
                 bytes_remaining := c.bytes_remaining - len })

/-- Pull chunks until the iterator reports exhaustion, collecting them
in order; `fuel` bounds the number of pulls (each successful pull
consumes at least one byte, so `bytes_remaining` is always enough). -/
def chunksFrom : Nat → Chunker → Option (List (List Nat))
  | 0, c => if c.bytes_remaining = 0 then some [] else none
  | fuel + 1, c =>
    match Chunker.next c with
    | none => none
    | some (none, _) => some []
    | some (some chunk, c2) =>
      match chunksFrom fuel c2 with
      | none => none
      | some rest => some (chunk :: rest)

/-- The complete chunk sequence of a session. -/
def Chunker.chunks (c : Chunker) : Option (List (List Nat)) :=
  chunksFrom c.bytes_remaining c

/-- The chunk list the spec predicts for a constant buffer of `n` bytes
`b` chunked with `target = 64, max = 1024`: `n / 1024` full chunks and,
if `n` is not a multiple of 1024, a final chunk of the remainder. -/
def constExpect (b n : Nat) : List (List Nat) :=
  List.replicate (n / 1024) (List.replicate 1024 b) ++
    (if n % 1024 = 0 then [] else [List.replicate (n % 1024) b])

/-! ## Bounds on the floating-point emulation

The claims quantify over every parameter set accepted by construction.
The scan-level proofs only need coarse bounds on the derived parameters:
`targetWindowSize t + 8 ≤ t` (so `min_chunksize ≥ 8`) and
`windowSizeOf tw ≤ tw` (so `min_chunksize + window_size ≤ target ≤ max`).
Both follow from an upper bound on `roundF64` that holds for any
rounding within one unit in the last place. -/

theorem rne_ge (a b : Nat) : a / b ≤ rne a b := by
  simp only [rne]
  split_ifs <;> omega

theorem rne_le (a b : Nat) : rne a b ≤ a / b + 1 := by
  simp only [rne]
  split_ifs <;> omega

theorem log2F_le : ∀ f n, n ≤ f → 1 ≤ n → 2 ^ log2F f n ≤ n := by
  intro f
  induction f with
  | zero => intro n h h1; omega
  | succ f ih =>
    intro n h h1
    simp only [log2F]
    split_ifs with h2
    · have hd : 1 ≤ n / 2 := by omega
      have hf : n / 2 ≤ f := by omega
      have hrec := ih (n / 2) hf hd
      have : 2 ^ (log2F f (n / 2) + 1) = 2 ^ log2F f (n / 2) * 2 := by ring
      omega
    · simpa using h1

theorem nlog2_le (n : Nat) (h : 1 ≤ n) : 2 ^ nlog2 n ≤ n :=
  log2F_le n n le_rfl h

theorem mul_pow_nlog2_div_le (p q : Nat) : q * 2 ^ nlog2 (p / q) ≤ p + q := by
  rcases Nat.eq_zero_or_pos (p / q) with h | h
  · rw [h]
    simp [nlog2, log2F]
  · have h2 := nlog2_le (p / q) h
    have h3 : q * (p / q) ≤ p := by
      rw [Nat.mul_comm]
      exact Nat.div_mul_le_self p q
    have h4 : q * 2 ^ nlog2 (p / q) ≤ q * (p / q) := Nat.mul_le_mul_left q h2
    omega

theorem roundF64_le (p q : Nat) : q * roundF64 p q ≤ p * 2 ^ 52 + p + q := by
  simp only [roundF64]
  have hq2 : q * 2 ^ nlog2 (p / q) ≤ p + q := mul_pow_nlog2_div_le p q
  split_ifs with h52
  · set j := nlog2 (p / q) with hj
    set A := (2 : Nat) ^ (52 - j) with hA
    set B := (2 : Nat) ^ j with hB
    have hsplit : (2 : Nat) ^ 52 = A * B := by
      rw [hA, hB, ← Nat.pow_add]
      congr 1
      omega
    rw [hsplit]
    have h1 : rne (p * A) q ≤ p * A / q + 1 := rne_le ..
    have h2 : q * (p * A / q) ≤ p * A := by
      rw [Nat.mul_comm]
      exact Nat.div_mul_le_self ..
    calc q * (rne (p * A) q * B)
        ≤ q * ((p * A / q + 1) * B) :=
          Nat.mul_le_mul_left q (Nat.mul_le_mul_right B h1)
      _ = q * (p * A / q) * B + q * B := by ring
      _ ≤ p * A * B + q * B := Nat.add_le_add_right (Nat.mul_le_mul_right B h2) _
      _ ≤ p * A * B + (p + q) := Nat.add_le_add_left hq2 _
      _ = p * (A * B) + p + q := by ring
  · set j := nlog2 (p / q) with hj
    set C := (2 : Nat) ^ (j - 52) with hC
    have hsplit : (2 : Nat) ^ j = C * 2 ^ 52 := by
      rw [hC, ← Nat.pow_add]
      congr 1
      omega
    rw [hsplit] at hq2 ⊢
    have h1 : rne p (q * C) ≤ p / (q * C) + 1 := rne_le ..
    have h2 : q * C * (p / (q * C)) ≤ p := by
      rw [Nat.mul_comm]
      exact Nat.div_mul_le_self ..
    calc q * (rne p (q * C) * (C * 2 ^ 52))
        ≤ q * ((p / (q * C) + 1) * (C * 2 ^ 52)) :=
          Nat.mul_le_mul_left q (Nat.mul_le_mul_right _ h1)
      _ = q * C * (p / (q * C)) * 2 ^ 52 + q * (C * 2 ^ 52) := by ring
      _ ≤ p * 2 ^ 52 + q * (C * 2 ^ 52) :=
          Nat.add_le_add_right (Nat.mul_le_mul_right _ h2) _
      _ ≤ p * 2 ^ 52 + (p + q) := Nat.add_le_add_left hq2 _
      _ = p * 2 ^ 52 + p + q := by omega

theorem targetWindowSize_add_eight_le (t : Nat) (ht : 64 ≤ t) :
    targetWindowSize t + 8 ≤ t := by
  simp only [targetWindowSize, f64toUsize, E_M1_NUM]
  have h1 := roundF64_le t 1
  have h2 := roundF64_le (roundF64 t 1) (2 * 3869226701182825)
  norm_num at h1 h2 ⊢
  omega

theorem windowSizeOf_le (tw : Nat) : windowSizeOf tw ≤ tw := by
  simp only [windowSizeOf, f64toUsize, C56_NUM]
  have h1 := roundF64_le tw 1
  have h2 := roundF64_le (roundF64 tw 1 * 5044031582654956) (2 ^ 105)
  norm_num at h1 h2 ⊢
  omega

/-! ## Construction -/

theorem with_params_ok (buf : List Nat) (t mx salt : Nat) (c : Chunker)
    (h : Chunker.with_params buf t mx salt = .ok c) :
    c = { slice := buf, window_size := windowSizeOf (targetWindowSize t),
          max_chunksize := mx, min_chunksize := t - targetWindowSize t,
          salt := salt, bytes_processed := 0, bytes_remaining := buf.length }
      ∧ 2 * t ≤ mx ∧ 64 ≤ t := by
  simp only [Chunker.with_params] at h
  by_cases h1 : mx < 2 * t
  · rw [if_pos h1] at h
    exact absurd h (by simp)
  · rw [if_neg h1] at h
    by_cases h2 : t < 64
    · rw [if_pos h2] at h
      exact absurd h (by simp)
    · rw [if_neg h2] at h
      simp only [Except.ok.injEq] at h
      exact ⟨h.symm, by omega, by omega⟩

theorem with_params_good (buf : List Nat) (t mx salt : Nat) (c : Chunker)
    (h : Chunker.with_params buf t mx salt = .ok c) :
    8 ≤ c.min_chunksize ∧ c.min_chunksize + c.window_size ≤ c.max_chunksize ∧
      c.bytes_processed + c.bytes_remaining = c.slice.length ∧
      c.slice = buf ∧ c.bytes_processed = 0 ∧ c.max_chunksize = mx := by
  obtain ⟨hc, hmx, ht⟩ := with_params_ok buf t mx salt c h
  have h7 := targetWindowSize_add_eight_le t ht
  have h8 := windowSizeOf_le (targetWindowSize t)
  subst hc
  refine ⟨by simp; omega, ?_, by simp, rfl, rfl, rfl⟩
  show t - targetWindowSize t + windowSizeOf (targetWindowSize t) ≤ mx
  omega

/-! ## The scanner never reads out of bounds and returns a bounded length -/

theorem swapped_salted_isgt_some (l : List Nat) (i j salt : Nat)
    (hi : i + 8 ≤ l.length) (hj : j + 8 ≤ l.length) :
    ∃ g, swapped_salted_isgt l i j salt = some g := by
  simp only [swapped_salted_isgt, readU64BE, if_pos hi, if_pos hj]
  exact ⟨_, rfl⟩

theorem scanLoop_ok (l : List Nat) (ws mx salt : Nat) :
    ∀ (fuel i marker : Nat), marker < i → i ≤ mx → 1 ≤ l.length →
      (fuel = 0 ∨ i + fuel + 8 ≤ l.length) →
      ∃ len, scanLoop l ws mx salt fuel i marker = some len ∧
        1 ≤ len ∧ len ≤ mx ∧ len ≤ l.length := by
  intro fuel
  induction fuel with
  | zero =>
    intro i marker hmi himx hn _
    refine ⟨if mx < l.length then mx else l.length, by simp [scanLoop], ?_⟩
    split_ifs <;> omega
  | succ fuel ih =>
    intro i marker hmi himx hn hbound
    have hin : i + (fuel + 1) + 8 ≤ l.length := by omega
    have hi8 : i + 8 ≤ l.length := by omega
    have hm8 : marker + 8 ≤ l.length := by omega
    obtain ⟨g, hg⟩ := swapped_salted_isgt_some l i marker salt hi8 hm8
    by_cases hieq : i = mx
    · refine ⟨i, ?_, by omega, by omega, by omega⟩
      simp only [scanLoop]
      rw [if_pos hieq]
    · cases g with
      | false =>
        have hrec := ih (i + 1) i (by omega) (by omega) hn
          (by rcases Nat.eq_zero_or_pos fuel with h | h
              · exact Or.inl h
              · exact Or.inr (by omega))
        obtain ⟨len, hlen, hprops⟩ := hrec
        refine ⟨len, ?_, hprops⟩
        simp only [scanLoop]
        rw [if_neg hieq, hg]
        exact hlen
      | true =>
        by_cases hw : i = marker + ws
        · refine ⟨i, ?_, by omega, by omega, by omega⟩
          simp only [scanLoop]
          rw [if_neg hieq, hg]
          show (if i = marker + ws then some i
            else scanLoop l ws mx salt fuel (i + 1) marker) = some i
          rw [if_pos hw]
        · have hrec := ih (i + 1) marker (by omega) (by omega) hn
            (by rcases Nat.eq_zero_or_pos fuel with h | h
                · exact Or.inl h
                · exact Or.inr (by omega))
          obtain ⟨len, hlen, hprops⟩ := hrec
          refine ⟨len, ?_, hprops⟩
          simp only [scanLoop]
          rw [if_neg hieq, hg]
          show (if i = marker + ws then some i
            else scanLoop l ws mx salt fuel (i + 1) marker) = some len
          rw [if_neg hw]
          exact hlen

theorem next_chunked_slice_ok (remaining : List Nat) (ws mn mx salt : Nat)
    (h8 : 8 ≤ mn) (hgood : mn + ws ≤ mx) (hn : 1 ≤ remaining.length) :
    ∃ len, next_chunked_slice remaining ws mn mx salt = some len ∧
      1 ≤ len ∧ len ≤ mx ∧ len ≤ remaining.length := by
  simp only [next_chunked_slice]
  split_ifs with htail
  · exact ⟨remaining.length, rfl, hn, by omega, le_rfl⟩
  · apply scanLoop_ok remaining ws mx salt (remaining.length - 8 - mn) mn 0 (by omega)
      (by omega) hn
    rcases Nat.eq_zero_or_pos (remaining.length - 8 - mn) with h | h
    · exact Or.inl h
    · exact Or.inr (by omega)

/-! ## The full iteration -/

theorem chunksFrom_ok : ∀ (fuel : Nat) (c : Chunker),
    8 ≤ c.min_chunksize →
    c.min_chunksize + c.window_size ≤ c.max_chunksize →
    c.bytes_processed + c.bytes_remaining = c.slice.length →
    c.bytes_remaining ≤ fuel →
    ∃ cs, chunksFrom fuel c = some cs ∧
      cs.flatten = c.slice.drop c.bytes_processed ∧
      ∀ ch ∈ cs, 1 ≤ ch.length ∧ ch.length ≤ c.max_chunksize := by
  intro fuel
  induction fuel with
  | zero =>
    intro c h8 hgood hinv hle
    have hbr : c.bytes_remaining = 0 := by omega
    refine ⟨[], by simp [chunksFrom, hbr], ?_, by simp⟩
    have hp : c.slice.length ≤ c.bytes_processed := by omega
    simp [List.drop_eq_nil_of_le hp]
  | succ fuel ih =>
    intro c h8 hgood hinv hle
    by_cases hbr : c.bytes_remaining = 0
    · refine ⟨[], ?_, ?_, by simp⟩
      · simp [chunksFrom, Chunker.next, hbr]
      · have hp : c.slice.length ≤ c.bytes_processed := by omega
        simp [List.drop_eq_nil_of_le hp]
    · have hlen : (c.slice.drop c.bytes_processed).length = c.bytes_remaining := by
        rw [List.length_drop]
        omega
      obtain ⟨len, hscan, h1len, hlmx, hln⟩ :=
        next_chunked_slice_ok (c.slice.drop c.bytes_processed) c.window_size
          c.min_chunksize c.max_chunksize c.salt h8 hgood (by omega)
      obtain ⟨c2, hc2⟩ : ∃ c2 : Chunker,
          c2 = { c with
                  bytes_processed := c.bytes_processed + len,
                  bytes_remaining := c.bytes_remaining - len } := ⟨_, rfl⟩
      have hnext : Chunker.next c =
          some (some ((c.slice.drop c.bytes_processed).take len), c2) := by
        rw [hc2]
        simp only [Chunker.next, if_neg hbr, hscan]
      have hlen2 : len ≤ c.bytes_remaining := by omega
      obtain ⟨cs2, hcs2, hflat2, hmem2⟩ := ih c2 (by rw [hc2]; exact h8)
        (by rw [hc2]; exact hgood)
        (by rw [hc2]; show c.bytes_processed + len + (c.bytes_remaining - len) = c.slice.length; omega)
        (by rw [hc2]; show c.bytes_remaining - len ≤ fuel; omega)
      refine ⟨(c.slice.drop c.bytes_processed).take len :: cs2, ?_, ?_, ?_⟩
      · simp only [chunksFrom, hnext, hcs2]
      · simp only [List.flatten_cons, hflat2]
        have hdd : c2.slice.drop c2.bytes_processed =
            (c.slice.drop c.bytes_processed).drop len := by
          rw [hc2]
          exact (List.drop_drop len c.bytes_processed c.slice).symm
        rw [hdd, List.take_append_drop]
      · intro ch hch
        rcases List.mem_cons.mp hch with h | h
        · subst h
          rw [List.length_take]
          constructor <;> omega
        · have hm := hmem2 ch h
          rw [hc2] at hm
          exact hm

/-! ## Claim theorems: partition, bounds, comparator safety -/

/-- Claim C1 (partition property): for every buffer and every parameter set
accepted by construction, pulling from the `Chunker` until exhaustion
succeeds and the concatenation, in order, of all produced chunks exactly
reconstructs the original buffer; in particular the sum of the chunk
lengths equals the buffer's length, so chunks are contiguous,
non-overlapping, and no byte is dropped or duplicated. -/
theorem partition_property (buf : List Nat) (t mx salt : Nat) (c : Chunker)
    (h : Chunker.with_params buf t mx salt = .ok c) :
    ∃ cs, Chunker.chunks c = some cs ∧ cs.flatten = buf ∧
      (cs.map List.length).sum = buf.length := by
  obtain ⟨h8, hgood, hinv, hslice, hbp, -⟩ := with_params_good buf t mx salt c h
  obtain ⟨cs, hcs, hflat, -⟩ := chunksFrom_ok c.bytes_remaining c h8 hgood hinv le_rfl
  refine ⟨cs, hcs, ?_, ?_⟩
  · rw [hflat, hbp, hslice]
    rfl
  · have := congrArg List.length hflat
    rw [List.length_flatten] at this
    rw [this, hbp, hslice]
    rfl

theorem partition_property_witness :
    Chunker.with_params [10, 20, 30] 64 128 5 = .ok
      { slice := [10, 20, 30], window_size := 20, max_chunksize := 128,
        min_chunksize := 27, salt := 5, bytes_processed := 0, bytes_remaining := 3 }
    ∧ ∃ cs, Chunker.chunks
        { slice := [10, 20, 30], window_size := 20, max_chunksize := 128,
          min_chunksize := 27, salt := 5, bytes_processed := 0, bytes_remaining := 3 } = some cs ∧
        cs.flatten = [10, 20, 30] ∧ (cs.map List.length).sum = [10, 20, 30].length := by
  have h : Chunker.with_params [10, 20, 30] 64 128 5 = .ok
      { slice := [10, 20, 30], window_size := 20, max_chunksize := 128,
        min_chunksize := 27, salt := 5, bytes_processed := 0, bytes_remaining := 3 } := by rfl
  exact ⟨h, partition_property [10, 20, 30] 64 128 5 _ h⟩

/-- Claim C2 (bound property): for every buffer and every parameter set
accepted by construction, every chunk the session produces has length at
least 1 and at most `max_chunksize` (including the final tail chunk,
which is covered because the derived `min_chunksize + window_size` never
exceeds `max_chunksize`). -/
theorem bound_property (buf : List Nat) (t mx salt : Nat) (c : Chunker)
    (h : Chunker.with_params buf t mx salt = .ok c) :
    ∃ cs, Chunker.chunks c = some cs ∧
      ∀ ch ∈ cs, 1 ≤ ch.length ∧ ch.length ≤ mx := by
  obtain ⟨h8, hgood, hinv, -, -, hmx⟩ := with_params_good buf t mx salt c h
  obtain ⟨cs, hcs, -, hmem⟩ := chunksFrom_ok c.bytes_remaining c h8 hgood hinv le_rfl
  rw [hmx] at hmem
  exact ⟨cs, hcs, hmem⟩

theorem bound_property_witness :
    Chunker.with_params [10, 20, 30] 64 129 6 = .ok
      { slice := [10, 20, 30], window_size := 20, max_chunksize := 129,
        min_chunksize := 27, salt := 6, bytes_processed := 0, bytes_remaining := 3 }
    ∧ ∃ cs, Chunker.chunks
        { slice := [10, 20, 30], window_size := 20, max_chunksize := 129,
          min_chunksize := 27, salt := 6, bytes_processed := 0, bytes_remaining := 3 } = some cs ∧
        ∀ ch ∈ cs, 1 ≤ ch.length ∧ ch.length ≤ 129 := by
  have h : Chunker.with_params [10, 20, 30] 64 129 6 = .ok
      { slice := [10, 20, 30], window_size := 20, max_chunksize := 129,
        min_chunksize := 27, salt := 6, bytes_processed := 0, bytes_remaining := 3 } := by rfl
  exact ⟨h, bound_property [10, 20, 30] 64 129 6 _ h⟩

/-- Claim C7 (comparator in-bounds safety): on every pull of a session
accepted by construction, the salted comparator is only invoked at offset
pairs whose 8-byte reads lie entirely within the remaining buffer.  In
this embedding an out-of-range read returns the `none` sentinel, which
propagates to the chunk sequence, so the claim is exactly that running
the session to exhaustion never produces the sentinel. -/
theorem comparator_in_bounds (buf : List Nat) (t mx salt : Nat) (c : Chunker)
    (h : Chunker.with_params buf t mx salt = .ok c) :
    ∃ cs, Chunker.chunks c = some cs := by
  obtain ⟨h8, hgood, hinv, -, -, -⟩ := with_params_good buf t mx salt c h
  obtain ⟨cs, hcs, -, -⟩ := chunksFrom_ok c.bytes_remaining c h8 hgood hinv le_rfl
  exact ⟨cs, hcs⟩

theorem comparator_in_bounds_witness :
    Chunker.with_params [10, 20, 30] 64 130 7 = .ok
      { slice := [10, 20, 30], window_size := 20, max_chunksize := 130,
        min_chunksize := 27, salt := 7, bytes_processed := 0, bytes_remaining := 3 }
    ∧ ∃ cs, Chunker.chunks
        { slice := [10, 20, 30], window_size := 20, max_chunksize := 130,
          min_chunksize := 27, salt := 7, bytes_processed := 0, bytes_remaining := 3 } = some cs := by
  have h : Chunker.with_params [10, 20, 30] 64 130 7 = .ok
      { slice := [10, 20, 30], window_size := 20, max_chunksize := 130,
        min_chunksize := 27, salt := 7, bytes_processed := 0, bytes_remaining := 3 } := by rfl
  exact ⟨h, comparator_in_bounds [10, 20, 30] 64 130 7 _ h⟩

/-! ## Claim theorems: construction validation, precedence, determinism, exhaustion -/

/-- Claim C3 (construction validation): for every buffer, target, max and
salt, construction fails with `InsufficientMaxSize` exactly when
`max_chunksize < 2 * target_chunksize` (as mathematical integers, so
`max = 2 * target` succeeds), fails with `InsufficientTargetSize` exactly
when the max-size check passes and `target_chunksize < 64`, and otherwise
succeeds, returning a ready session (original buffer, cursor at zero, all
bytes remaining) with no other effect. -/
theorem construction_validation (buf : List Nat) (t mx salt : Nat) :
    (Chunker.with_params buf t mx salt = .error .InsufficientMaxSize ↔ mx < 2 * t)
    ∧ (Chunker.with_params buf t mx salt = .error .InsufficientTargetSize ↔
        2 * t ≤ mx ∧ t < 64)
    ∧ ((∃ c, Chunker.with_params buf t mx salt = .ok c ∧ c.slice = buf ∧
          c.bytes_processed = 0 ∧ c.bytes_remaining = buf.length) ↔
        2 * t ≤ mx ∧ 64 ≤ t) := by
  simp only [Chunker.with_params]
  by_cases h1 : mx < 2 * t
  · rw [if_pos h1]
    refine ⟨⟨fun _ => h1, fun _ => rfl⟩, ⟨?_, ?_⟩, ⟨?_, ?_⟩⟩
    · intro h
      exact absurd h (by simp)
    · intro h
      exact absurd h.1 (by omega)
    · rintro ⟨c, hc, -⟩
      exact absurd hc (by simp)
    · intro h
      exact absurd h.1 (by omega)
  · rw [if_neg h1]
    by_cases h2 : t < 64
    · rw [if_pos h2]
      refine ⟨⟨?_, ?_⟩, ⟨fun _ => by omega, fun _ => rfl⟩, ⟨?_, ?_⟩⟩
      · intro h
        exact absurd h (by simp)
      · intro h
        exact absurd h (by omega)
      · rintro ⟨c, hc, -⟩
        exact absurd hc (by simp)
      · intro h
        exact absurd h.2 (by omega)
    · rw [if_neg h2]
      refine ⟨⟨?_, ?_⟩, ⟨?_, ?_⟩, ⟨fun _ => by omega, fun _ => ⟨_, rfl, rfl, rfl, rfl⟩⟩⟩
      · intro h
        exact absurd h (by simp)
      · intro h
        exact absurd h (by omega)
      · intro h
        exact absurd h (by simp)
      · intro h
        exact absurd h.2 (by omega)

/-- Claim C10 (error precedence): when both failure conditions hold at
once (`max < 2 * target` and `target < 64`), `with_params` returns
`InsufficientMaxSize`, not `InsufficientTargetSize`: the max-size check
is evaluated first. -/
theorem error_precedence (buf : List Nat) (t mx salt : Nat)
    (h1 : mx < 2 * t) (_h2 : t < 64) :
    Chunker.with_params buf t mx salt = .error .InsufficientMaxSize := by
  simp only [Chunker.with_params]
  rw [if_pos h1]

theorem error_precedence_witness :
    (100 : Nat) < 2 * 63 ∧ (63 : Nat) < 64 ∧
      Chunker.with_params [0] 63 100 0 = .error .InsufficientMaxSize :=
  ⟨by norm_num, by norm_num, error_precedence [0] 63 100 0 (by norm_num) (by norm_num)⟩

/-- Claim C5 (determinism): two sessions independently constructed from
the identical tuple (buffer, target, max, salt) are equal states and,
pulled to exhaustion, produce byte-identical chunk sequences — the model
is a pure function of exactly these four inputs, so chunking depends on
nothing else. -/
theorem determinism (buf : List Nat) (t mx salt : Nat) (c1 c2 : Chunker)
    (h1 : Chunker.with_params buf t mx salt = .ok c1)
    (h2 : Chunker.with_params buf t mx salt = .ok c2) :
    Chunker.chunks c1 = Chunker.chunks c2 ∧ c1 = c2 := by
  rw [h1] at h2
  injection h2 with h3
  subst h3
  exact ⟨rfl, rfl⟩

theorem determinism_witness :
    Chunker.with_params [1, 2] 64 200 9 = .ok
      { slice := [1, 2], window_size := 20, max_chunksize := 200,
        min_chunksize := 27, salt := 9, bytes_processed := 0, bytes_remaining := 2 }
    ∧ Chunker.chunks
        { slice := [1, 2], window_size := 20, max_chunksize := 200,
          min_chunksize := 27, salt := 9, bytes_processed := 0, bytes_remaining := 2 } =
      Chunker.chunks
        { slice := [1, 2], window_size := 20, max_chunksize := 200,
          min_chunksize := 27, salt := 9, bytes_processed := 0, bytes_remaining := 2 } := by
  have h : Chunker.with_params [1, 2] 64 200 9 = .ok
      { slice := [1, 2], window_size := 20, max_chunksize := 200,
        min_chunksize := 27, salt := 9, bytes_processed := 0, bytes_remaining := 2 } := by rfl
  exact ⟨h, (determinism [1, 2] 64 200 9 _ _ h h).1⟩

/-- Claim C9 (exhaustion protocol): a pull reports end-of-sequence
exactly when `bytes_remaining = 0`, and then leaves the state unchanged,
so every subsequent pull reports it again (idempotent, never an error);
construction over an empty buffer with valid parameters succeeds and the
session is exhausted from the start, yielding zero chunks. -/
theorem exhaustion_protocol (c : Chunker) (t mx salt : Nat) :
    ((∃ c2, Chunker.next c = some (none, c2)) ↔ c.bytes_remaining = 0)
    ∧ (c.bytes_remaining = 0 → Chunker.next c = some (none, c))
    ∧ (2 * t ≤ mx → 64 ≤ t →
        ∃ c0, Chunker.with_params [] t mx salt = .ok c0 ∧
          c0.bytes_remaining = 0 ∧ Chunker.chunks c0 = some []) := by
  refine ⟨⟨?_, ?_⟩, ?_, ?_⟩
  · rintro ⟨c2, hnext⟩
    by_contra hbr
    simp only [Chunker.next, if_neg hbr] at hnext
    rcases hscan : next_chunked_slice (c.slice.drop c.bytes_processed) c.window_size
        c.min_chunksize c.max_chunksize c.salt with _ | len <;>
      rw [hscan] at hnext <;> simp at hnext
  · intro h
    exact ⟨c, by simp only [Chunker.next, if_pos h]⟩
  · intro h
    simp only [Chunker.next, if_pos h]
  · intro hmx ht
    have h : Chunker.with_params [] t mx salt = .ok
        { slice := [], window_size := windowSizeOf (targetWindowSize t),
          max_chunksize := mx, min_chunksize := t - targetWindowSize t,
          salt := salt, bytes_processed := 0, bytes_remaining := 0 } := by
      simp only [Chunker.with_params]
      rw [if_neg (by omega), if_neg (by omega)]
      rfl
    exact ⟨_, h, rfl, rfl⟩

theorem exhaustion_protocol_witness :
    Chunker.next
      { slice := [], window_size := 20, max_chunksize := 128,
        min_chunksize := 27, salt := 0, bytes_processed := 0, bytes_remaining := 0 } =
      some (none,
        { slice := [], window_size := 20, max_chunksize := 128,
          min_chunksize := 27, salt := 0, bytes_processed := 0, bytes_remaining := 0 })
    ∧ ∃ c0, Chunker.with_params [] 64 128 0 = .ok c0 ∧
        c0.bytes_remaining = 0 ∧ Chunker.chunks c0 = some [] := by
  constructor
  · exact (exhaustion_protocol
      { slice := [], window_size := 20, max_chunksize := 128,
        min_chunksize := 27, salt := 0, bytes_processed := 0, bytes_remaining := 0 }
      64 128 0).2.1 rfl
  · exact (exhaustion_protocol
      { slice := [], window_size := 20, max_chunksize := 128,
        min_chunksize := 27, salt := 0, bytes_processed := 0, bytes_remaining := 0 }
      64 128 0).2.2 (by norm_num) (by norm_num)

/-- Claim C6 (asymmetric-extremum scan rule): during a scan (tail rule
not applying, hard ceiling not reached at `i`), the scanner starts at
marker 0 and, at candidate position `i`, compares the transformed value
at `i` with the one at `marker`: when not strictly greater it sets
`marker := i` and continues; when strictly greater it keeps `marker` and
returns `i` exactly when `i = marker + window_size`. -/
theorem asymmetric_extremum_rule (l : List Nat) (ws mn mx salt fuel i marker : Nat)
    (g : Bool) (hmax : i ≠ mx)
    (hg : swapped_salted_isgt l i marker salt = some g)
    (htail : ¬ l.length ≤ mn + ws) :
    next_chunked_slice l ws mn mx salt =
      scanLoop l ws mx salt (l.length - 8 - mn) mn 0
    ∧ scanLoop l ws mx salt (fuel + 1) i marker =
        (if g then
          (if i = marker + ws then some i
           else scanLoop l ws mx salt fuel (i + 1) marker)
         else scanLoop l ws mx salt fuel (i + 1) i) := by
  constructor
  · simp only [next_chunked_slice]
    rw [if_neg htail]
  · simp only [scanLoop]
    rw [if_neg hmax, hg]

theorem asymmetric_extremum_rule_witness :
    ((5 : Nat) ≠ 1000)
    ∧ swapped_salted_isgt (List.replicate 20 0) 5 0 0 = some false
    ∧ ¬ (List.replicate 20 0).length ≤ 2 + 3
    ∧ (next_chunked_slice (List.replicate 20 0) 3 2 1000 0 =
        scanLoop (List.replicate 20 0) 3 1000 0 ((List.replicate 20 0).length - 8 - 2) 2 0
      ∧ scanLoop (List.replicate 20 0) 3 1000 0 (1 + 1) 5 0 =
          (if false then
            (if 5 = 0 + 3 then some 5
             else scanLoop (List.replicate 20 0) 3 1000 0 1 (5 + 1) 0)
           else scanLoop (List.replicate 20 0) 3 1000 0 1 (5 + 1) 5)) := by
  refine ⟨by decide, by decide, by decide, ?_⟩
  exact asymmetric_extremum_rule (List.replicate 20 0) 3 2 1000 0 1 5 0 false
    (by decide) (by decide) (by decide)

/-! ## Constant buffers: every comparison ties, so only the hard ceiling cuts -/

theorem getD_replicate (n b k : Nat) (h : k < n) :
    (List.replicate n b).getD k 0 = b := by
  induction n generalizing k with
  | zero => omega
  | succ n ih =>
    rw [List.replicate_succ]
    cases k with
    | zero => rfl
    | succ k =>
      rw [List.getD_cons_succ]
      exact ih k (by omega)

theorem byteAt_replicate (n b k : Nat) (h : k < n) :
    byteAt (List.replicate n b) k = b % 256 := by
  rw [byteAt, getD_replicate n b k h]

theorem readU64BE_replicate (n b i : Nat) (h : i + 8 ≤ n) :
    readU64BE (List.replicate n b) i =
      some (b % 256 * 2 ^ 56 + b % 256 * 2 ^ 48 + b % 256 * 2 ^ 40 + b % 256 * 2 ^ 32 +
        b % 256 * 2 ^ 24 + b % 256 * 2 ^ 16 + b % 256 * 2 ^ 8 + b % 256) := by
  have hl : i + 8 ≤ (List.replicate n b).length := by
    rw [List.length_replicate]
    exact h
  simp only [readU64BE]
  rw [if_pos hl, byteAt_replicate n b i (by omega), byteAt_replicate n b (i + 1) (by omega),
    byteAt_replicate n b (i + 2) (by omega), byteAt_replicate n b (i + 3) (by omega),
    byteAt_replicate n b (i + 4) (by omega), byteAt_replicate n b (i + 5) (by omega),
    byteAt_replicate n b (i + 6) (by omega), byteAt_replicate n b (i + 7) (by omega)]

theorem isgt_replicate (n b i j salt : Nat) (hi : i + 8 ≤ n) (hj : j + 8 ≤ n) :
    swapped_salted_isgt (List.replicate n b) i j salt = some false := by
  simp only [swapped_salted_isgt, readU64BE_replicate n b i hi, readU64BE_replicate n b j hj]
  simp

theorem scanLoop_replicate (n b salt : Nat) :
    ∀ (fuel i marker : Nat), marker ≤ i → i + fuel + 8 = n →
      scanLoop (List.replicate n b) 20 1024 salt fuel i marker =
        some (if i ≤ 1024 ∧ 1024 < i + fuel then 1024 else min 1024 n) := by
  intro fuel
  induction fuel with
  | zero =>
    intro i marker hmi hn
    simp only [scanLoop, List.length_replicate]
    congr 1
    split_ifs <;> omega
  | succ fuel ih =>
    intro i marker hmi hn
    by_cases hieq : i = 1024
    · simp only [scanLoop]
      rw [if_pos hieq]
      congr 1
      split_ifs <;> omega
    · have hi8 : i + 8 ≤ n := by omega
      have hm8 : marker + 8 ≤ n := by omega
      simp only [scanLoop]
      rw [if_neg hieq, isgt_replicate n b i marker salt hi8 hm8]
      show scanLoop (List.replicate n b) 20 1024 salt fuel (i + 1) i =
        some (if i ≤ 1024 ∧ 1024 < i + (fuel + 1) then 1024 else min 1024 n)
      rw [ih (i + 1) i (by omega) (by omega)]
      congr 1
      split_ifs <;> omega

theorem next_chunked_slice_replicate (n b salt : Nat) (hn : 1 ≤ n) :
    next_chunked_slice (List.replicate n b) 20 27 1024 salt = some (min n 1024) := by
  simp only [next_chunked_slice, List.length_replicate]
  split_ifs with htail
  · congr 1
    omega
  · rw [scanLoop_replicate n b salt (n - 8 - 27) 27 0 (by omega) (by omega)]
    congr 1
    split_ifs <;> omega

theorem constExpect_step (b n : Nat) (hn : 1 ≤ n) :
    constExpect b n = List.replicate (min n 1024) b :: constExpect b (n - min n 1024) := by
  rcases le_or_lt 1024 n with h | h
  · have hmin : min n 1024 = 1024 := by omega
    rw [hmin]
    simp only [constExpect]
    have hd : n / 1024 = (n - 1024) / 1024 + 1 := by omega
    have hm : n % 1024 = (n - 1024) % 1024 := by omega
    rw [hd, hm, List.replicate_succ]
    rfl
  · have hmin : min n 1024 = n := by omega
    rw [hmin]
    simp only [constExpect]
    have hd : n / 1024 = 0 := by omega
    have hm : n % 1024 = n := by omega
    rw [hd, hm, Nat.sub_self]
    rw [if_neg (by omega : ¬ n = 0)]
    rfl

theorem chunksFrom_replicate (b L salt : Nat) :
    ∀ (fuel p : Nat), p ≤ L → L - p ≤ fuel →
      chunksFrom fuel
        { slice := List.replicate L b, window_size := 20, max_chunksize := 1024,
          min_chunksize := 27, salt := salt, bytes_processed := p,
          bytes_remaining := L - p } = some (constExpect b (L - p)) := by
  intro fuel
  induction fuel with
  | zero =>
    intro p hp hle
    have h0 : L - p = 0 := by omega
    rw [h0]
    simp [chunksFrom, constExpect]
  | succ fuel ih =>
    intro p hp hle
    by_cases h0 : L - p = 0
    · rw [h0]
      simp [chunksFrom, Chunker.next, constExpect]
    · obtain ⟨m, hmdef⟩ : ∃ m, m = min (L - p) 1024 := ⟨_, rfl⟩
      have hdrop : (List.replicate L b).drop p = List.replicate (L - p) b :=
        List.drop_replicate ..
      have hscan : next_chunked_slice (List.replicate (L - p) b) 20 27 1024 salt =
          some m := by
        rw [hmdef]
        exact next_chunked_slice_replicate (L - p) b salt (by omega)
      have hm1 : 1 ≤ m := by omega
      have hmle : m ≤ L - p := by omega
      have htake : (List.replicate (L - p) b).take m = List.replicate m b := by
        rw [List.take_replicate]
        congr 1
        omega
      have hnext : Chunker.next
          { slice := List.replicate L b, window_size := 20, max_chunksize := 1024,
            min_chunksize := 27, salt := salt, bytes_processed := p,
            bytes_remaining := L - p } =
          some (some (List.replicate m b),
            { slice := List.replicate L b, window_size := 20, max_chunksize := 1024,
              min_chunksize := 27, salt := salt, bytes_processed := p + m,
              bytes_remaining := L - p - m }) := by
        simp [Chunker.next, h0, hdrop, hscan, htake]
      have hrec := ih (p + m) (by omega) (by omega)
      have heq : L - (p + m) = L - p - m := by omega
      rw [heq] at hrec
      simp only [chunksFrom, hnext, hrec]
      rw [constExpect_step b (L - p) (by omega), ← hmdef]

/-- Claim C4 (degenerate content): for every constant-byte buffer of
length `L`, chunking with `target_chunksize = 64` and
`max_chunksize = 1024` yields exactly `L / 1024` chunks of length 1024
followed, when `L % 1024 ≠ 0`, by one final chunk of length `L % 1024`
(so `L = 10240` gives 10 chunks of 1024 and `L = 102401` gives 100
chunks of 1024 and then one chunk of length 1). -/
theorem degenerate_content (b L salt : Nat) (c : Chunker)
    (h : Chunker.with_params (List.replicate L b) 64 1024 salt = .ok c) :
    Chunker.chunks c = some (constExpect b L) := by
  obtain ⟨hc, -, -⟩ := with_params_ok (List.replicate L b) 64 1024 salt c h
  rw [hc]
  have hrun := chunksFrom_replicate b L salt L 0 (Nat.zero_le L) (by omega)
  simp only [Chunker.chunks, List.length_replicate]
  exact hrun

theorem degenerate_content_witness :
    Chunker.with_params (List.replicate 70 0) 64 1024 0 = .ok
      { slice := List.replicate 70 0, window_size := 20, max_chunksize := 1024,
        min_chunksize := 27, salt := 0, bytes_processed := 0, bytes_remaining := 70 }
    ∧ Chunker.chunks
        { slice := List.replicate 70 0, window_size := 20, max_chunksize := 1024,
          min_chunksize := 27, salt := 0, bytes_processed := 0, bytes_remaining := 70 } =
      some (constExpect 0 70) := by
  have h : Chunker.with_params (List.replicate 70 0) 64 1024 0 = .ok
      { slice := List.replicate 70 0, window_size := 20, max_chunksize := 1024,
        min_chunksize := 27, salt := 0, bytes_processed := 0, bytes_remaining := 70 } := by rfl
  exact ⟨h, degenerate_content 0 70 0 _ h⟩

/-! ## Parameter derivation (claim C8)

The claim equates the derived parameters with exact real-number
formulas.  The code computes them with `f64` arithmetic, and the `f64`
constant `0.56` is `14/25 + 12 / (25 * 2^53)`, slightly above the real
`0.56 = 14/25`.  For large accepted targets that excess crosses an
integer boundary, so `window_size = floor(target_window * 0.56)` fails:
the claim's own equation `min_chunksize = target - target_window`
determines `target_window = target - min_chunksize` (the claimed
`target_window = target/(e-1)` truncated is at most `target` because
`e - 1 > 1`), hence the claim forces
`window_size = (target - min_chunksize) * 14 / 25`, which the session
below violates.  At the spec's example `target = 64` the real-number
formulas do hold exactly. -/

/-- At the accepted target 3436563656918118 (max twice that, empty
buffer, salt 0) the session derives `target_window = 2000000000000016`
(so `min_chunksize = 1436563656918102`) and
`window_size = 1120000000000009`, but
`floor(2000000000000016 * 0.56) = 2000000000000016 * 14 / 25 =
1120000000000008`: the claimed `window_size` equation is false for this
parameter set. -/
theorem parameter_derivation_counterexample :
    Chunker.with_params [] 3436563656918118 6873127313836236 0 = .ok
      { slice := [], window_size := 1120000000000009,
        max_chunksize := 6873127313836236, min_chunksize := 1436563656918102,
        salt := 0, bytes_processed := 0, bytes_remaining := 0 }
    ∧ 3436563656918118 - 1436563656918102 = 2000000000000016
    ∧ 2000000000000016 * 14 / 25 = 1120000000000008
    ∧ (1120000000000009 : Nat) ≠ 1120000000000008 := by
  exact ⟨by rfl, by norm_num, by norm_num, by norm_num⟩

/-- Claim C8, amended: the session's derived parameters are exactly the
`f64` computation of the source (`target_window` from the division by
`consts::E - 1.0`, `window_size` from the multiplication by `0.56`,
`min_chunksize = target - target_window`); at the spec's example
`target = 64` they moreover agree with the claim's exact real-number
formulas: `target_window = ⌊64 / (e - 1)⌋ = 37`,
`window_size = ⌊37 * 0.56⌋ = 20`, `min_chunksize = 27`. -/
theorem parameter_derivation_amended (buf : List Nat) (t mx salt : Nat) (c : Chunker)
    (h : Chunker.with_params buf t mx salt = .ok c) :
    c.min_chunksize = t - targetWindowSize t
    ∧ c.window_size = windowSizeOf (targetWindowSize t)
    ∧ (t = 64 → targetWindowSize t = 37 ∧ c.window_size = 20 ∧ c.min_chunksize = 27
        ∧ (37 : ℤ) = ⌊(64 : ℝ) / (Real.exp 1 - 1)⌋
        ∧ (20 : ℤ) = ⌊(37 : ℝ) * 0.56⌋) := by
  obtain ⟨hc, -, -⟩ := with_params_ok buf t mx salt c h
  subst hc
  refine ⟨rfl, rfl, ?_⟩
  rintro rfl
  have he1 := Real.exp_one_gt_d9
  have he2 := Real.exp_one_lt_d9
  have hpos : (0 : ℝ) < Real.exp 1 - 1 := by nlinarith
  refine ⟨by decide, ?_, ?_, ?_, ?_⟩
  · show windowSizeOf (targetWindowSize 64) = 20
    decide
  · show 64 - targetWindowSize 64 = 27
    decide
  · symm
    rw [Int.floor_eq_iff]
    constructor
    · rw [le_div_iff₀ hpos]
      push_cast
      nlinarith
    · rw [div_lt_iff₀ hpos]
      push_cast
      nlinarith
  · symm
    have h2072 : (37 : ℝ) * 0.56 = 20.72 := by norm_num
    rw [h2072, Int.floor_eq_iff]
    constructor <;> norm_num

theorem parameter_derivation_amended_witness :
    Chunker.with_params [] 64 128 0 = .ok
      { slice := [], window_size := 20, max_chunksize := 128, min_chunksize := 27,
        salt := 0, bytes_processed := 0, bytes_remaining := 0 }
    ∧ ((27 : Nat) = 64 - targetWindowSize 64
      ∧ (20 : Nat) = windowSizeOf (targetWindowSize 64)
      ∧ ((64 : Nat) = 64 → targetWindowSize 64 = 37 ∧ (20 : Nat) = 20 ∧ (27 : Nat) = 27
          ∧ (37 : ℤ) = ⌊(64 : ℝ) / (Real.exp 1 - 1)⌋
          ∧ (20 : ℤ) = ⌊(37 : ℝ) * 0.56⌋)) := by
  have h : Chunker.with_params [] 64 128 0 = .ok
      { slice := [], window_size := 20, max_chunksize := 128, min_chunksize := 27,
        salt := 0, bytes_processed := 0, bytes_remaining := 0 } := by rfl
  exact ⟨h, parameter_derivation_amended [] 64 128 0 _ h⟩

/- The expected chunk list at the two concrete lengths named by the
spec: `L = 10240` is ten full chunks, `L = 102401` is a hundred full
chunks and a final chunk of one byte. -/
set_option maxRecDepth 10000 in
theorem constExpect_concrete :
    constExpect 0 10240 = List.replicate 10 (List.replicate 1024 0)
    ∧ constExpect 0 102401 =
        List.replicate 100 (List.replicate 1024 0) ++ [[0]] := by
  constructor
  · rw [constExpect]
    norm_num
  · rw [constExpect]
    norm_num

end QuickCDC
